import Mathlib

/-!
Verification of the UART console firmware (rust-microcontroller).

Shallow embedding of:
* the interrupt-safe input queue (`INPUT_QUEUE` / `get_input`,
  `src/peripherals/uart/mod.rs`), modelled after the semantics of
  `heapless::spsc::Queue<u8, N>` (the third-party container the code
  instantiates): a ring buffer of `N` slots that keeps one slot empty to
  distinguish full from empty, so its documented capacity is `N - 1`
  elements; `enqueue` drops the byte and reports failure when full,
  `dequeue` is FIFO;
* the baud-rate divisor computation (`config_baud_rate`), with the `f32`
  arithmetic of the source modelled by exact rational arithmetic (at the
  magnitudes involved the `f32` roundings cannot move the truncated
  results across an integer boundary);
* the line editor / escape-sequence state machine
  (`src/peripherals/uart/terminal.rs`), together with a model of the
  remote terminal display that replays the bytes the editor emits.

`MAX_LINE_LENGTH` comes from a `constants` module that is not part of the
sources at hand; every definition is therefore parametric in it (`maxLen`).
Machine bytes are modelled as `Nat` (all values involved are < 256 and no
arithmetic overflows an 8-bit value).  Panics of the source
(`Vec::insert` on a bad index, `.unwrap()` on a full vector,
`Vec::remove` out of bounds) are modelled as `none`.
-/

namespace Mcu

/-! ### Input queue (`heapless::spsc::Queue<u8, N>`) -/

/-- Model of `Queue::enqueue` for `heapless::spsc::Queue<u8, N>`: the ring
buffer holds at most `N - 1` elements (one slot stays empty), so the
enqueue succeeds iff the current length is below `N - 1`; on a full queue
the byte is dropped and `false` (the `Err` case) is returned.  The ISR
`UART0_IRQ` calls this with `let _ = queue.enqueue(data)`. -/
def enqueue (N : Nat) (q : List Nat) (b : Nat) : List Nat × Bool :=
  if q.length + 1 < N then (q ++ [b], true) else (q, false)

/-- Enqueue a whole sequence of bytes one by one (repeated ISR deliveries). -/
def enqueueAll (N : Nat) (q : List Nat) (bs : List Nat) : List Nat :=
  bs.foldl (fun acc b => (enqueue N acc b).1) q

/-- Model of `heapless::Vec::push` with capacity `cap`: drops the element
when the vector is full (the source ignores the `Result` with `let _`). -/
def vecPush (cap : Nat) (v : List Nat) (b : Nat) : List Nat :=
  if v.length < cap then v ++ [b] else v

/-- Model of `Uart::get_input` (`src/peripherals/uart/mod.rs:232-243`):
inside a critical section, dequeue every byte of the input queue in FIFO
order and push it into a fresh `heapless::Vec<u8, MAX_LINE_LENGTH>`,
ignoring push failures; returns the filled buffer and the (now empty)
queue.  `N` is `MAX_LINE_LENGTH`, the capacity parameter of both the
queue and the vector. -/
def get_input (N : Nat) (q : List Nat) : List Nat × List Nat :=
  (q.foldl (vecPush N) [], [])

/-! ### Baud-rate divisor (`SerialPort::config_baud_rate` for `Uart`) -/

/-- Constant `UART_BAUD_RATE` from `src/peripherals/uart/mod.rs:15`. -/
def UART_BAUD_RATE : Nat := 115200

/-- A single write to one of the UART registers touched by
`config_baud_rate`. -/
inductive RegWrite where
  | ibrd (v : Nat)
  | fbrd (v : Nat)
  | lcr_h (v : Nat)
deriving DecidableEq, Repr

/-- Model of `config_baud_rate` (`src/peripherals/uart/mod.rs:136-181`):
computes `clock / (16 * baud)` truncated to an integer (written to
`UARTIBRD`), then the fractional remainder scaled by 64 with `+ 0.5`
rounding, truncated (written to `UARTFBRD`), and finally re-writes
`UARTLCR_H` with its current value so the divisor takes effect.  The
source performs the computation in `f32`; it is modelled here with exact
rational arithmetic, the truncations `as u32` becoming `Int.floor` (the
values are nonnegative).  Returns the sequence of register writes in
program order; `lcr_current` is the value read back from `UARTLCR_H`. -/
def config_baud_rate (clock_hz : Nat) (lcr_current : Nat) : List RegWrite :=
  let baud_rate_divisor_integer : Nat := clock_hz / (16 * UART_BAUD_RATE)
  let fraction : ℚ :=
    (clock_hz : ℚ) / (16 * (UART_BAUD_RATE : ℚ)) - (baud_rate_divisor_integer : ℚ)
  let fraction_bits : Nat := (⌊fraction * 64 + 1/2⌋).toNat
  [RegWrite.ibrd baud_rate_divisor_integer,
   RegWrite.fbrd fraction_bits,
   RegWrite.lcr_h lcr_current]

/-! ### Line editor (`src/peripherals/uart/terminal.rs`)

Editor operations return the successor state paired with the list of
bytes pushed through `uart.putc` / `uart.print`, in emission order;
operations that can panic return an `Option`. -/

/-- Enum `EscapeState` (`terminal.rs:57-64`). -/
inductive EscapeState where
  | NotReceived
  | Received
  | BracketReceived
deriving DecidableEq, Repr

/-- Enum `TerminalTextColor` (`terminal.rs:93-97`). -/
inductive TerminalTextColor where
  | Red
  | Green
  | Blue
deriving DecidableEq, Repr

/-- Conversion `TerminalTextColor::as_bytes` (`terminal.rs:101-107`): the ANSI color
codes `"31m"`, `"32m"`, `"34m"`. -/
def TerminalTextColor.as_bytes : TerminalTextColor → List Nat
  | .Red => [0x33, 0x31, 0x6D]
  | .Green => [0x33, 0x32, 0x6D]
  | .Blue => [0x33, 0x34, 0x6D]

/-- The `Terminal` struct (`terminal.rs:67-88`) without the hardware
handle: cursor, escape state, line buffer, and the static prompt
configuration. -/
structure Terminal where
  cursor : Nat
  escape_state : EscapeState
  current_line : List Nat
  prompt_color : TerminalTextColor
  cli_prompt : List Nat
deriving DecidableEq, Repr

/-- Output of `print_escape_sequence` (`terminal.rs:164-167`): ESC `[`. -/
def escapeSeq : List Nat := [0x1B, 0x5B]

/-- Output of `print_control_sequence` (`terminal.rs:170-173`). -/
def print_control_sequence (cs : List Nat) : List Nat := escapeSeq ++ cs

/-- Output of `apply_prompt_color` (`terminal.rs:184-188`). -/
def apply_prompt_color (t : Terminal) : List Nat :=
  escapeSeq ++ t.prompt_color.as_bytes

/-- Output of `clear_formatting` (`terminal.rs:191-193`): ESC `[` `0m`. -/
def clear_formatting : List Nat := print_control_sequence [0x30, 0x6D]

/-- Output of `Terminal::print` (`terminal.rs:201-208`). -/
def Terminal.print (t : Terminal) (s : List Nat) (applyColor : Bool) : List Nat :=
  (if applyColor then apply_prompt_color t else []) ++ s ++ clear_formatting

/-- Output of `print_prompt` (`terminal.rs:152-155`). -/
def Terminal.print_prompt (t : Terminal) : List Nat :=
  t.print t.cli_prompt true

/-- Operation `move_cursor_left` (`terminal.rs:220-231`): emits ESC `[` `D` and
decrements the cursor when it is positive, otherwise does nothing. -/
def move_cursor_left (t : Terminal) : Terminal × List Nat :=
  if 0 < t.cursor then
    ({ t with cursor := t.cursor - 1 }, [0x1B, 0x5B, 0x44])
  else (t, [])

/-- Operation `move_cursor_right` (`terminal.rs:234-245`): emits ESC `[` `C` and
increments the cursor when it is below the line length. -/
def move_cursor_right (t : Terminal) : Terminal × List Nat :=
  if t.cursor < t.current_line.length then
    ({ t with cursor := t.cursor + 1 }, [0x1B, 0x5B, 0x43])
  else (t, [])

/-- Operation `clear_line` (`terminal.rs:248-257`): emits ESC `[` `0K`, a carriage
return, sets the cursor to 0 and reprints the prompt. -/
def clear_line (t : Terminal) : Terminal × List Nat :=
  ({ t with cursor := 0 },
   print_control_sequence [0x30, 0x4B] ++ [0x0D] ++ t.print_prompt)

/-- Iterated `move_cursor_left`.  The source's
`while self.cursor > original_cursor { self.move_cursor_left(); }`
(`terminal.rs:273-275`) runs exactly `cursor - original_cursor` times:
the guard implies `cursor > 0`, so every iteration decrements the cursor
by one. -/
def moveLeftN : Terminal → Nat → Terminal × List Nat
  | t, 0 => (t, [])
  | t, n + 1 =>
    let s1 := move_cursor_left t
    let s2 := moveLeftN s1.1 n
    (s2.1, s1.2 ++ s2.2)

/-- Operation `rewrite_line` (`terminal.rs:260-276`): remember the cursor, clear the
line (which reprints the prompt and zeroes the cursor), emit every byte of
the buffer from the (now zero) cursor onwards incrementing the cursor per
byte, set the cursor to the buffer length, then move left back to the
remembered column. -/
def rewrite_line (t : Terminal) : Terminal × List Nat :=
  let original_cursor := t.cursor
  let s1 := clear_line t
  let tail := s1.1.current_line.drop s1.1.cursor
  let t2 : Terminal := { s1.1 with cursor := s1.1.cursor + tail.length }
  let t3 : Terminal := { t2 with cursor := t2.current_line.length }
  let s4 := moveLeftN t3 (t3.cursor - original_cursor)
  (s4.1, s1.2 ++ tail ++ s4.2)

/-- Operation `newline` (`terminal.rs:279-286`): emits CR LF, reprints the prompt,
sets the cursor to 0.  The line buffer itself is cleared by the caller
(`process_bytes`). -/
def newline (t : Terminal) : Terminal × List Nat :=
  ({ t with cursor := 0 }, [0x0D, 0x0A] ++ t.print_prompt)

/-- Model of `heapless::Vec::insert` with capacity `cap`.  `none` covers
both panic modes of the source call `current_line.insert(i, b).unwrap()`:
`insert` itself panics when `i > len`, and the `.unwrap()` panics on the
`Err` returned when the vector is full. -/
def vecInsert (cap : Nat) (l : List Nat) (i : Nat) (b : Nat) : Option (List Nat) :=
  if i ≤ l.length ∧ l.length < cap then some (l.take i ++ b :: l.drop i)
  else none

/-- Model of `heapless::Vec::remove`: panics (`none`) when the index is
out of bounds. -/
def vecRemove (l : List Nat) (i : Nat) : Option (List Nat) :=
  if i < l.length then some (l.take i ++ l.drop (i + 1)) else none

/-- Operation `backspace` (`terminal.rs:289-295`): when the cursor is positive,
remove the byte before it, move the cursor left and redraw the line. -/
def backspace (t : Terminal) : Option (Terminal × List Nat) :=
  if 0 < t.cursor then
    match vecRemove t.current_line (t.cursor - 1) with
    | none => none
    | some l =>
      let s2 := move_cursor_left { t with current_line := l }
      let s3 := rewrite_line s2.1
      some (s3.1, s2.2 ++ s3.2)
  else some (t, [])

/-- Operation `space` (`terminal.rs:298-306`): when the buffer is not full, insert a
space at the cursor, move the cursor right and redraw the line. -/
def space (maxLen : Nat) (t : Terminal) : Option (Terminal × List Nat) :=
  if t.current_line.length < maxLen then
    match vecInsert maxLen t.current_line t.cursor 0x20 with
    | none => none
    | some l =>
      let s2 := move_cursor_right { t with current_line := l }
      let s3 := rewrite_line s2.1
      some (s3.1, s2.2 ++ s3.2)
  else some (t, [])

/-- Operation `insert_character` (`terminal.rs:309-315`): when the buffer is not
full, insert the byte at the cursor, echo it and advance the cursor. -/
def insert_character (maxLen : Nat) (t : Terminal) (data : Nat) :
    Option (Terminal × List Nat) :=
  if t.current_line.length < maxLen then
    match vecInsert maxLen t.current_line t.cursor data with
    | none => none
    | some l =>
      some ({ t with current_line := l, cursor := t.cursor + 1 }, [data])
  else some (t, [])

/-- One iteration of the `process_bytes` loop (`terminal.rs:322-374`):
dispatch a single input byte according to the escape state. -/
def processByte (maxLen : Nat) (t : Terminal) (data : Nat) :
    Option (Terminal × List Nat) :=
  match t.escape_state with
  | .NotReceived =>
    if data = 0x1B then some ({ t with escape_state := .Received }, [])
    else if data = 0x0D ∨ data = 0x0A then
      let s := newline t
      some ({ s.1 with current_line := [] }, s.2)
    else if data = 0x08 ∨ data = 0x7F then backspace t
    else if data = 0x20 then space maxLen t
    else if 0x21 ≤ data ∧ data ≤ 0x7E then insert_character maxLen t data
    else some (t, [])
  | .Received =>
    if data = 0x5B then some ({ t with escape_state := .BracketReceived }, [])
    else some ({ t with escape_state := .NotReceived }, [])
  | .BracketReceived =>
    if data = 0x44 then
      let s := move_cursor_left t
      some ({ s.1 with escape_state := .NotReceived }, s.2)
    else if data = 0x43 then
      let s := move_cursor_right t
      some ({ s.1 with escape_state := .NotReceived }, s.2)
    else some ({ t with escape_state := .NotReceived }, [])

/-- Loop `process_bytes` (`terminal.rs:322-374`): process a buffer of input
bytes in order, concatenating everything emitted. -/
def processBytes (maxLen : Nat) (t : Terminal) :
    List Nat → Option (Terminal × List Nat)
  | [] => some (t, [])
  | b :: bs =>
    match processByte maxLen t b with
    | none => none
    | some (t1, o1) =>
      match processBytes maxLen t1 bs with
      | none => none
      | some (t2, o2) => some (t2, o1 ++ o2)

/-- The editor state right after startup (`Terminal::new`,
`terminal.rs:125-149`): empty buffer, cursor 0, no escape sequence in
progress. -/
def initTerminal (prompt : List Nat) (color : TerminalTextColor) : Terminal :=
  { cursor := 0
    escape_state := .NotReceived
    current_line := []
    prompt_color := color
    cli_prompt := prompt }

/-! ### Remote terminal display model

Replays the bytes the editor emits on a model of the remote terminal:
one display line, a cursor column, and a parser for the fixed ANSI subset
the editor uses (ESC `[` followed by parameter digits and a final byte:
`K` erase to end of line, `J` clear screen, `H` home, `m` formatting
(no content effect), `D`/`C` cursor one left/right). -/

/-- ANSI parse state of the remote display. -/
inductive TermParse where
  | TIdle
  | TEsc
  | TCsi
deriving DecidableEq, Repr

/-- Remote display: the current line's contents, the cursor column, and
the ANSI parse state. -/
structure Display where
  line : List Nat
  col : Nat
  parse : TermParse
deriving DecidableEq, Repr

/-- Write a byte at column `c`: overwrite in place, or extend the line
(padding with spaces) when writing at or beyond the end. -/
def termWrite (l : List Nat) (c : Nat) (b : Nat) : List Nat :=
  if c < l.length then l.set c b
  else l ++ List.replicate (c - l.length) 0x20 ++ [b]

/-- Remote display transition for one received byte. -/
def dispByte (d : Display) (b : Nat) : Display :=
  match d.parse with
  | .TIdle =>
    if b = 0x1B then { d with parse := .TEsc }
    else if b = 0x0D then { d with col := 0 }
    else if b = 0x0A then { d with line := [] }
    else if 0x20 ≤ b ∧ b ≤ 0x7E then
      { d with line := termWrite d.line d.col b, col := d.col + 1 }
    else d
  | .TEsc =>
    if b = 0x5B then { d with parse := .TCsi }
    else { d with parse := .TIdle }
  | .TCsi =>
    if 0x30 ≤ b ∧ b ≤ 0x39 then d
    else if b = 0x44 then { d with col := d.col - 1, parse := .TIdle }
    else if b = 0x43 then { d with col := d.col + 1, parse := .TIdle }
    else if b = 0x4B then { d with line := d.line.take d.col, parse := .TIdle }
    else if b = 0x4A then { d with line := [], parse := .TIdle }
    else if b = 0x48 then { d with col := 0, parse := .TIdle }
    else { d with parse := .TIdle }

/-- Replay a sequence of emitted bytes on the display. -/
def dispRun (d : Display) (out : List Nat) : Display := out.foldl dispByte d

/-- The display right after startup: the prompt is shown and the cursor
sits just after it. -/
def initDisplay (prompt : List Nat) : Display :=
  { line := prompt, col := prompt.length, parse := .TIdle }

/-- Sequential overwrite of a byte list starting at column `c`
(the effect of replaying a run of printable bytes). -/
def writeAll (l : List Nat) (c : Nat) : List Nat → List Nat
  | [] => l
  | b :: s => writeAll (termWrite l c b) (c + 1) s

/-- Correspondence between an editor state and the remote display: the
displayed line is the prompt followed by the line buffer, the display
cursor column matches the editor cursor, no ANSI sequence is half-parsed,
the editor cursor is within the buffer, and the buffer holds only
printable bytes (0x20–0x7E). -/
def EditorView (t : Terminal) (d : Display) : Prop :=
  d.line = t.cli_prompt ++ t.current_line ∧
  d.col = t.cli_prompt.length + t.cursor ∧
  d.parse = .TIdle ∧
  t.cursor ≤ t.current_line.length ∧
  (∀ b ∈ t.current_line, 0x20 ≤ b ∧ b ≤ 0x7E)

/-- A byte whose processing keeps the display faithful: anything except a
printable-byte insert into a non-full buffer strictly before the end of
the line (such an insert echoes one byte and overwrites, rather than
inserts, on the remote display). -/
abbrev OkByte (maxLen : Nat) (t : Terminal) (b : Nat) : Prop :=
  ¬(t.escape_state = EscapeState.NotReceived ∧ 0x21 ≤ b ∧ b ≤ 0x7E ∧
    t.current_line.length < maxLen ∧ t.cursor < t.current_line.length)

/-- An input byte sequence all of whose printable inserts happen at the
tail of the line buffer, checked along the run. -/
def tailOnly (maxLen : Nat) (t : Terminal) : List Nat → Bool
  | [] => true
  | b :: bs =>
    decide (OkByte maxLen t b) &&
      (match processByte maxLen t b with
       | some (t', _) => tailOnly maxLen t' bs
       | none => false)

/-- The structural invariant of the editor: the cursor stays inside the
line buffer and the buffer stays within `MAX_LINE_LENGTH`. -/
def CursorInv (maxLen : Nat) (t : Terminal) : Prop :=
  t.cursor ≤ t.current_line.length ∧ t.current_line.length ≤ maxLen

/-- Exactly `n` copies of the emitted cursor-left sequence ESC `[` `D`. -/
def leftSeq : Nat → List Nat
  | 0 => []
  | n + 1 => [0x1B, 0x5B, 0x44] ++ leftSeq n

/-- Exactly `n` copies of a three-byte arrow-key input ESC `[` `b`. -/
def arrowTaps (b : Nat) : Nat → List Nat
  | 0 => []
  | n + 1 => [0x1B, 0x5B, b] ++ arrowTaps b n

/-! ## Theorems -/

/-! ### Queue lemmas -/

theorem enqueueAll_eq_take (N : Nat) (q bs : List Nat)
    (hq : q.length ≤ N - 1) :
    enqueueAll N q bs = q ++ bs.take (N - 1 - q.length) := by
  induction bs generalizing q with
  | nil => simp [enqueueAll]
  | cons b bs ih =>
    by_cases h : q.length + 1 < N
    · have hstep : enqueueAll N q (b :: bs) = enqueueAll N (q ++ [b]) bs := by
        simp [enqueueAll, enqueue, h]
      rw [hstep, ih (q ++ [b]) (by simp; omega)]
      have h1 : N - 1 - q.length = (N - 1 - (q.length + 1)) + 1 := by omega
      simp [h1, List.take_succ_cons]
    · have hstep : enqueueAll N q (b :: bs) = enqueueAll N q bs := by
        simp [enqueueAll, enqueue, h]
      rw [hstep, ih q hq]
      have h1 : N - 1 - q.length = 0 := by omega
      simp [h1]

theorem foldl_vecPush_eq (N : Nat) (v l : List Nat)
    (h : v.length + l.length ≤ N) :
    l.foldl (vecPush N) v = v ++ l := by
  induction l generalizing v with
  | nil => simp
  | cons b l ih =>
    have hlt : v.length < N := by simp at h; omega
    have h2 : l.foldl (vecPush N) (v ++ [b]) = (v ++ [b]) ++ l :=
      ih (v ++ [b]) (by simp at h ⊢; omega)
    simp only [List.foldl_cons, vecPush, if_pos hlt, h2]
    simp

/-- C1 (corrected): enqueuing a byte sequence into the initially empty
input queue and draining with `get_input` returns the first
`MAX_LINE_LENGTH - 1` bytes in order and leaves the queue empty; in
particular a sequence of at most `MAX_LINE_LENGTH - 1` bytes round-trips
exactly.  The effective capacity is `N - 1`, not `N`, because
`heapless::spsc::Queue<u8, N>` keeps one ring slot empty. -/
theorem c1_queue_roundtrip (N : Nat) (bs : List Nat) :
    get_input N (enqueueAll N [] bs) = (bs.take (N - 1), []) ∧
    (bs.length ≤ N - 1 → get_input N (enqueueAll N [] bs) = (bs, [])) := by
  have h1 : enqueueAll N [] bs = bs.take (N - 1) := by
    simpa using enqueueAll_eq_take N [] bs (by simp)
  have h2 : (bs.take (N - 1)).foldl (vecPush N) [] = bs.take (N - 1) := by
    simpa using foldl_vecPush_eq N [] (bs.take (N - 1)) (by simp)
  constructor
  · simp [get_input, h1, h2]
  · intro hle
    have h3 : bs.take (N - 1) = bs := List.take_of_length_le hle
    rw [h3] at h1 h2
    simp [get_input, h1, h2]

theorem c1_queue_roundtrip_witness :
    [1, 2, 3].length ≤ 4 - 1 ∧ get_input 4 (enqueueAll 4 [] [1, 2, 3]) = ([1, 2, 3], []) :=
  ⟨by decide, (c1_queue_roundtrip 4 [1, 2, 3]).2 (by decide)⟩

/-- C1 is false as stated: with capacity taken to be `MAX_LINE_LENGTH`
itself (here `N = 4`), enqueuing exactly `N` bytes and draining loses the
last byte instead of returning the whole sequence. -/
theorem c1_counterexample :
    get_input 4 (enqueueAll 4 [] [1, 2, 3, 4]) = ([1, 2, 3], []) ∧
    get_input 4 (enqueueAll 4 [] [1, 2, 3, 4]) ≠ ([1, 2, 3, 4], []) := by
  constructor <;> decide

/-- C4: for `clock_hz = 125_000_000` and `baud = 115200`,
`config_baud_rate` writes 67 (the floor of the divisor) to the integer
divisor register, 52 (round-half-up of the scaled fraction) to the
fractional divisor register, and immediately afterwards re-writes the
line-control register with its current value. -/
theorem c4_baud_divisor (lcr : Nat) :
    config_baud_rate 125000000 lcr =
      [RegWrite.ibrd 67, RegWrite.fbrd 52, RegWrite.lcr_h lcr] ∧
    67 = 125000000 / (16 * UART_BAUD_RATE) ∧
    (52 : ℤ) = ⌊(((125000000 : ℚ) / (16 * UART_BAUD_RATE)) - 67) * 64 + 1/2⌋ := by
  have hdiv : (125000000 : Nat) / (16 * UART_BAUD_RATE) = 67 := by decide
  have hfloor :
      (⌊(((125000000 : ℚ) / (16 * (UART_BAUD_RATE : ℚ))) - 67) * 64 + 1/2⌋ : ℤ) = 52 := by
    simp only [UART_BAUD_RATE]
    rw [Int.floor_eq_iff]
    norm_num
  refine ⟨?_, hdiv.symm, hfloor.symm⟩
  simp only [config_baud_rate, hdiv]
  norm_num [hfloor]
  decide

/-! ### Display replay lemmas -/

theorem dispRun_append (d : Display) (o1 o2 : List Nat) :
    dispRun d (o1 ++ o2) = dispRun (dispRun d o1) o2 := by
  simp [dispRun]

theorem dispRun_eraseEol (l : List Nat) (c : Nat) :
    dispRun ⟨l, c, .TIdle⟩ [0x1B, 0x5B, 0x30, 0x4B] = ⟨l.take c, c, .TIdle⟩ := rfl

theorem dispRun_crlf (l : List Nat) (c : Nat) :
    dispRun ⟨l, c, .TIdle⟩ [0x0D, 0x0A] = ⟨[], 0, .TIdle⟩ := rfl

theorem dispRun_color (col : TerminalTextColor) (l : List Nat) (c : Nat) :
    dispRun ⟨l, c, .TIdle⟩ (escapeSeq ++ col.as_bytes) = ⟨l, c, .TIdle⟩ := by
  cases col <;> rfl

theorem dispRun_clear_formatting (l : List Nat) (c : Nat) :
    dispRun ⟨l, c, .TIdle⟩ clear_formatting = ⟨l, c, .TIdle⟩ := rfl

theorem dispRun_leftSeq (n : Nat) (l : List Nat) (c : Nat) :
    dispRun ⟨l, c, .TIdle⟩ (leftSeq n) = ⟨l, c - n, .TIdle⟩ := by
  induction n generalizing c with
  | zero => simp [dispRun, leftSeq]
  | succ n ih =>
    show dispRun ⟨l, c, .TIdle⟩ ([0x1B, 0x5B, 0x44] ++ leftSeq n) = _
    rw [dispRun_append]
    have h1 : dispRun ⟨l, c, .TIdle⟩ [0x1B, 0x5B, 0x44] = ⟨l, c - 1, .TIdle⟩ := rfl
    rw [h1, ih]
    have h2 : c - 1 - n = c - (n + 1) := by omega
    rw [h2]

theorem dispRun_printables (s : List Nat) (hs : ∀ b ∈ s, 0x20 ≤ b ∧ b ≤ 0x7E)
    (l : List Nat) (c : Nat) :
    dispRun ⟨l, c, .TIdle⟩ s = ⟨writeAll l c s, c + s.length, .TIdle⟩ := by
  induction s generalizing l c with
  | nil => simp [dispRun, writeAll]
  | cons b s ih =>
    have hb := hs b (by simp)
    have h27 : ¬(b = 0x1B) := by omega
    have h13 : ¬(b = 0x0D) := by omega
    have h10 : ¬(b = 0x0A) := by omega
    have h1 : dispByte ⟨l, c, .TIdle⟩ b = ⟨termWrite l c b, c + 1, .TIdle⟩ := by
      simp only [dispByte, if_neg h27, if_neg h13, if_neg h10, if_pos hb]
    have h2 : dispRun ⟨l, c, .TIdle⟩ (b :: s) =
        dispRun ⟨termWrite l c b, c + 1, .TIdle⟩ s := by
      simp [dispRun, h1]
    rw [h2, ih (fun x hx => hs x (List.mem_cons_of_mem _ hx))]
    simp [writeAll]
    omega

theorem set_append_cons (p q : List Nat) (x b : Nat) :
    (p ++ x :: q).set p.length b = p ++ b :: q := by
  induction p with
  | nil => rfl
  | cons y p ih => simp [ih]

theorem writeAll_append (p q s : List Nat) :
    writeAll (p ++ q) p.length s = p ++ s ++ q.drop s.length := by
  induction s generalizing p q with
  | nil => simp [writeAll]
  | cons b s ih =>
    cases q with
    | nil =>
      have h1 : termWrite (p ++ []) p.length b = p ++ [b] := by
        simp [termWrite]
      have h2 := ih (p ++ [b]) []
      rw [writeAll, h1]
      simp only [List.append_nil] at h2 ⊢
      rw [show p.length + 1 = (p ++ [b]).length by simp, h2]
      simp
    | cons x q =>
      have h1 : termWrite (p ++ x :: q) p.length b = p ++ b :: q := by
        have hlt : p.length < (p ++ x :: q).length := by simp
        simp [termWrite, hlt, set_append_cons]
      have h2 := ih (p ++ [b]) q
      rw [writeAll, h1]
      have h3 : p ++ b :: q = (p ++ [b]) ++ q := by simp
      rw [h3, show p.length + 1 = (p ++ [b]).length by simp, h2]
      simp

theorem writeAll_eq_of_le (s l : List Nat) (c : Nat) (h : c ≤ l.length) :
    writeAll l c s = l.take c ++ s ++ l.drop (c + s.length) := by
  have hp : (l.take c).length = c := by simp; omega
  have h0 := writeAll_append (l.take c) (l.drop c) s
  rw [hp, List.take_append_drop, List.drop_drop] at h0
  rw [h0]

theorem dispRun_print_prompt (t : Terminal) (l : List Nat) (c : Nat)
    (hp : ∀ b ∈ t.cli_prompt, 0x20 ≤ b ∧ b ≤ 0x7E) :
    dispRun ⟨l, c, .TIdle⟩ t.print_prompt =
      ⟨writeAll l c t.cli_prompt, c + t.cli_prompt.length, .TIdle⟩ := by
  have h1 : t.print_prompt =
      (escapeSeq ++ t.prompt_color.as_bytes) ++
        (t.cli_prompt ++ clear_formatting) := by
    simp [Terminal.print_prompt, Terminal.print, apply_prompt_color]
  rw [h1, dispRun_append, dispRun_color, dispRun_append,
      dispRun_printables _ hp, dispRun_clear_formatting]

/-! ### Editor operation lemmas -/

theorem moveLeftN_eq (t : Terminal) (n : Nat) (h : n ≤ t.cursor) :
    moveLeftN t n = ({ t with cursor := t.cursor - n }, leftSeq n) := by
  induction n generalizing t with
  | zero => simp [moveLeftN, leftSeq]
  | succ n ih =>
    have hpos : 0 < t.cursor := by omega
    have h1 : move_cursor_left t =
        ({ t with cursor := t.cursor - 1 }, [0x1B, 0x5B, 0x44]) := by
      simp [move_cursor_left, hpos]
    have h2 := ih { t with cursor := t.cursor - 1 } (by simp; omega)
    simp only [moveLeftN, h1, h2, leftSeq]
    have h3 : t.cursor - 1 - n = t.cursor - (n + 1) := by omega
    simp [h3]

theorem rewrite_line_eq (t : Terminal) (h : t.cursor ≤ t.current_line.length) :
    rewrite_line t =
      (t, [0x1B, 0x5B, 0x30, 0x4B, 0x0D] ++ t.print_prompt ++
          t.current_line ++ leftSeq (t.current_line.length - t.cursor)) := by
  have h1 := moveLeftN_eq { t with cursor := t.current_line.length }
    (t.current_line.length - t.cursor) (by simp)
  unfold rewrite_line clear_line
  simp only [h1]
  have h2 : t.current_line.length - (t.current_line.length - t.cursor) = t.cursor := by
    omega
  simp [h2, print_control_sequence, escapeSeq]

theorem dispRun_eraseEol_cr (l : List Nat) (c : Nat) :
    dispRun ⟨l, c, .TIdle⟩ [0x1B, 0x5B, 0x30, 0x4B, 0x0D] = ⟨l.take c, 0, .TIdle⟩ := rfl

/-- Replaying everything `rewrite_line` emits, on any display whose shown
line is not longer than prompt-plus-buffer will be, repaints exactly the
prompt followed by the line buffer and parks the cursor at the editor's
column. -/
theorem dispRun_rewrite_out (t : Terminal) (l0 : List Nat) (c0 : Nat)
    (hprompt : ∀ b ∈ t.cli_prompt, 0x20 ≤ b ∧ b ≤ 0x7E)
    (hline : ∀ b ∈ t.current_line, 0x20 ≤ b ∧ b ≤ 0x7E)
    (hcur : t.cursor ≤ t.current_line.length)
    (hlen : min c0 l0.length ≤ t.cli_prompt.length + t.current_line.length) :
    dispRun ⟨l0, c0, .TIdle⟩ (rewrite_line t).2 =
      ⟨t.cli_prompt ++ t.current_line,
       t.cli_prompt.length + t.cursor, .TIdle⟩ := by
  rw [rewrite_line_eq t hcur]
  rw [dispRun_append, dispRun_append, dispRun_append, dispRun_eraseEol_cr,
      dispRun_print_prompt t _ _ hprompt, dispRun_printables _ hline,
      dispRun_leftSeq]
  have hw1 : writeAll (l0.take c0) 0 t.cli_prompt =
      t.cli_prompt ++ (l0.take c0).drop t.cli_prompt.length := by
    rw [writeAll_eq_of_le _ _ 0 (by omega)]
    simp
  have hX : ((l0.take c0).drop t.cli_prompt.length).length ≤ t.current_line.length := by
    simp
    omega
  have hw2 : writeAll (t.cli_prompt ++ (l0.take c0).drop t.cli_prompt.length)
      (0 + t.cli_prompt.length) t.current_line =
      t.cli_prompt ++ t.current_line := by
    rw [writeAll_eq_of_le _ _ _ (by simp)]
    have hta : (t.cli_prompt ++ (l0.take c0).drop t.cli_prompt.length).take
        (0 + t.cli_prompt.length) = t.cli_prompt := by
      simp
    have hdr : (t.cli_prompt ++ (l0.take c0).drop t.cli_prompt.length).drop
        (0 + t.cli_prompt.length + t.current_line.length) = [] := by
      rw [List.drop_eq_nil_iff]
      simp
      omega
    rw [hta, hdr]
    simp
  rw [hw1, hw2]
  have hcol : 0 + t.cli_prompt.length + t.current_line.length -
      (t.current_line.length - t.cursor) = t.cli_prompt.length + t.cursor := by
    omega
  rw [hcol]

theorem dispRun_left_one (l : List Nat) (c : Nat) :
    dispRun ⟨l, c, .TIdle⟩ [0x1B, 0x5B, 0x44] = ⟨l, c - 1, .TIdle⟩ := rfl

theorem dispRun_right_one (l : List Nat) (c : Nat) :
    dispRun ⟨l, c, .TIdle⟩ [0x1B, 0x5B, 0x43] = ⟨l, c + 1, .TIdle⟩ := rfl

theorem dispByte_printable (b : Nat) (hb : 0x20 ≤ b ∧ b ≤ 0x7E) (l : List Nat) (c : Nat) :
    dispByte ⟨l, c, .TIdle⟩ b = ⟨termWrite l c b, c + 1, .TIdle⟩ := by
  have h27 : ¬(b = 0x1B) := by omega
  have h13 : ¬(b = 0x0D) := by omega
  have h10 : ¬(b = 0x0A) := by omega
  simp only [dispByte, if_neg h27, if_neg h13, if_neg h10, if_pos hb]

/-! ### Editor step preservation lemmas -/

/-- Operation `backspace` keeps the display faithful: from a faithful display it
returns the editor with the byte before the cursor removed and the cursor
one step left, and its output repaints the display accordingly. -/
theorem backspace_step (t : Terminal)
    (hp : ∀ b ∈ t.cli_prompt, 0x20 ≤ b ∧ b ≤ 0x7E)
    (hline : ∀ b ∈ t.current_line, 0x20 ≤ b ∧ b ≤ 0x7E)
    (hcur : t.cursor ≤ t.current_line.length) :
    ∃ t' o, backspace t = some (t', o) ∧
      t'.escape_state = t.escape_state ∧
      t'.prompt_color = t.prompt_color ∧ t'.cli_prompt = t.cli_prompt ∧
      t'.cursor ≤ t'.current_line.length ∧
      (∀ b ∈ t'.current_line, 0x20 ≤ b ∧ b ≤ 0x7E) ∧
      t'.current_line.length ≤ t.current_line.length ∧
      dispRun ⟨t.cli_prompt ++ t.current_line, t.cli_prompt.length + t.cursor, .TIdle⟩ o =
        ⟨t.cli_prompt ++ t'.current_line, t.cli_prompt.length + t'.cursor, .TIdle⟩ := by
  by_cases hc : 0 < t.cursor
  · have hsub : t.cursor - 1 + 1 = t.cursor := by omega
    have hrem : vecRemove t.current_line (t.cursor - 1) =
        some (t.current_line.take (t.cursor - 1) ++ t.current_line.drop t.cursor) := by
      have hlt : t.cursor - 1 < t.current_line.length := by omega
      simp [vecRemove, hlt, hsub]
    have hline' : ∀ b ∈ t.current_line.take (t.cursor - 1) ++
        t.current_line.drop t.cursor, 0x20 ≤ b ∧ b ≤ 0x7E := by
      intro b hb
      rcases List.mem_append.mp hb with h | h
      · exact hline b (List.take_subset _ _ h)
      · exact hline b (List.drop_subset _ _ h)
    set t2 : Terminal := { t with current_line := t.current_line.take (t.cursor - 1) ++ t.current_line.drop t.cursor, cursor := t.cursor - 1 } with ht2
    have hml : move_cursor_left { t with current_line := t.current_line.take (t.cursor - 1) ++ t.current_line.drop t.cursor } = (t2, [0x1B, 0x5B, 0x44]) := by
      simp [move_cursor_left, hc, ht2]
    have hcur2 : t2.cursor ≤ t2.current_line.length := by
      simp [ht2]
      omega
    have hrw := rewrite_line_eq t2 hcur2
    have heq : backspace t = some (t2, [0x1B, 0x5B, 0x44] ++ (rewrite_line t2).2) := by
      simp only [backspace, if_pos hc, hrem, hml]
      rw [hrw]
    refine ⟨t2, _, heq, rfl, rfl, rfl, hcur2, hline', ?_, ?_⟩
    · simp [ht2]
      omega
    · rw [dispRun_append, dispRun_left_one,
        dispRun_rewrite_out t2 _ _ hp hline' hcur2 (by simp [ht2]; omega)]
  · refine ⟨t, [], ?_, rfl, rfl, rfl, hcur, hline, le_rfl, rfl⟩
    simp [backspace, hc]

/-- Operation `space` keeps the display faithful: it inserts a space at the cursor,
moves the cursor right, and its output repaints the display accordingly
(when the buffer is full it does nothing). -/
theorem space_step (maxLen : Nat) (t : Terminal)
    (hp : ∀ b ∈ t.cli_prompt, 0x20 ≤ b ∧ b ≤ 0x7E)
    (hline : ∀ b ∈ t.current_line, 0x20 ≤ b ∧ b ≤ 0x7E)
    (hcur : t.cursor ≤ t.current_line.length) :
    ∃ t' o, space maxLen t = some (t', o) ∧
      t'.escape_state = t.escape_state ∧
      t'.prompt_color = t.prompt_color ∧ t'.cli_prompt = t.cli_prompt ∧
      t'.cursor ≤ t'.current_line.length ∧
      (∀ b ∈ t'.current_line, 0x20 ≤ b ∧ b ≤ 0x7E) ∧
      t'.current_line.length ≤ max t.current_line.length maxLen ∧
      dispRun ⟨t.cli_prompt ++ t.current_line, t.cli_prompt.length + t.cursor, .TIdle⟩ o =
        ⟨t.cli_prompt ++ t'.current_line, t.cli_prompt.length + t'.cursor, .TIdle⟩ := by
  by_cases hf : t.current_line.length < maxLen
  · have hins : vecInsert maxLen t.current_line t.cursor 0x20 =
        some (t.current_line.take t.cursor ++ 0x20 :: t.current_line.drop t.cursor) := by
      simp [vecInsert, hcur, hf]
    have hline' : ∀ b ∈ t.current_line.take t.cursor ++
        0x20 :: t.current_line.drop t.cursor, 0x20 ≤ b ∧ b ≤ 0x7E := by
      intro b hb
      rcases List.mem_append.mp hb with h | h
      · exact hline b (List.take_subset _ _ h)
      · rcases List.mem_cons.mp h with h | h
        · omega
        · exact hline b (List.drop_subset _ _ h)
    have hlt : t.cursor < (t.current_line.take t.cursor ++ 0x20 :: t.current_line.drop t.cursor).length := by
      simp
      omega
    set t2 : Terminal := { t with current_line := t.current_line.take t.cursor ++ 0x20 :: t.current_line.drop t.cursor, cursor := t.cursor + 1 } with ht2
    have hmr : move_cursor_right { t with current_line := t.current_line.take t.cursor ++ 0x20 :: t.current_line.drop t.cursor } = (t2, [0x1B, 0x5B, 0x43]) := by
      simp only [move_cursor_right, if_pos hlt, ht2]
    have hcur2 : t2.cursor ≤ t2.current_line.length := by
      simp [ht2]
      omega
    have hrw := rewrite_line_eq t2 hcur2
    have heq : space maxLen t = some (t2, [0x1B, 0x5B, 0x43] ++ (rewrite_line t2).2) := by
      simp only [space, if_pos hf, hins, hmr]
      rw [hrw]
    refine ⟨t2, _, heq, rfl, rfl, rfl, hcur2, hline', ?_, ?_⟩
    · simp [ht2]
      omega
    · rw [dispRun_append, dispRun_right_one,
        dispRun_rewrite_out t2 _ _ hp hline' hcur2 (by simp [ht2]; omega)]
  · refine ⟨t, [], ?_, rfl, rfl, rfl, hcur, hline, by omega, rfl⟩
    simp [space, hf]

/-- Any processed byte other than a mid-line printable insert keeps the
editor-display correspondence. -/
theorem processByte_step (maxLen : Nat) (t : Terminal) (b : Nat)
    (hp : ∀ x ∈ t.cli_prompt, 0x20 ≤ x ∧ x ≤ 0x7E)
    (hline : ∀ x ∈ t.current_line, 0x20 ≤ x ∧ x ≤ 0x7E)
    (hcur : t.cursor ≤ t.current_line.length)
    (hok : OkByte maxLen t b) :
    ∃ t' o, processByte maxLen t b = some (t', o) ∧
      t'.prompt_color = t.prompt_color ∧ t'.cli_prompt = t.cli_prompt ∧
      t'.cursor ≤ t'.current_line.length ∧
      (∀ x ∈ t'.current_line, 0x20 ≤ x ∧ x ≤ 0x7E) ∧
      dispRun ⟨t.cli_prompt ++ t.current_line, t.cli_prompt.length + t.cursor, .TIdle⟩ o =
        ⟨t.cli_prompt ++ t'.current_line, t.cli_prompt.length + t'.cursor, .TIdle⟩ := by
  cases hesc : t.escape_state with
  | NotReceived =>
    by_cases h27 : b = 0x1B
    · exact ⟨{ t with escape_state := .Received }, [],
        by simp [processByte, hesc, h27], rfl, rfl, hcur, hline, rfl⟩
    by_cases hcrlf : b = 0x0D ∨ b = 0x0A
    · refine ⟨{ t with cursor := 0, current_line := [] },
        [0x0D, 0x0A] ++ t.print_prompt, ?_, rfl, rfl, by simp, by simp, ?_⟩
      · simp [processByte, hesc, h27, hcrlf, newline]
      · rw [dispRun_append, dispRun_crlf, dispRun_print_prompt t _ _ hp,
          writeAll_eq_of_le _ _ 0 (by simp)]
        simp
    by_cases hbs : b = 0x08 ∨ b = 0x7F
    · obtain ⟨t', o, hb1, _, hb3, hb4, hb5, hb6, _, hb8⟩ := backspace_step t hp hline hcur
      exact ⟨t', o, by simp [processByte, hesc, h27, hcrlf, hbs, hb1], hb3, hb4, hb5, hb6, hb8⟩
    by_cases hsp : b = 0x20
    · obtain ⟨t', o, hb1, _, hb3, hb4, hb5, hb6, _, hb8⟩ := space_step maxLen t hp hline hcur
      exact ⟨t', o, by simp [processByte, hesc, h27, hcrlf, hbs, hsp, hb1], hb3, hb4, hb5, hb6, hb8⟩
    by_cases hpr : 0x21 ≤ b ∧ b ≤ 0x7E
    · by_cases hful : t.current_line.length < maxLen
      · have hc_eq : t.cursor = t.current_line.length := by
          by_contra hne
          exact hok ⟨hesc, hpr.1, hpr.2, hful, by omega⟩
        have hins : vecInsert maxLen t.current_line t.cursor b =
            some (t.current_line ++ [b]) := by
          simp [vecInsert, hcur, hful, hc_eq]
        refine ⟨{ t with current_line := t.current_line ++ [b], cursor := t.cursor + 1 },
          [b], ?_, rfl, rfl, by simp; omega, ?_, ?_⟩
        · simp [processByte, hesc, h27, hcrlf, hbs, hsp, hpr, insert_character, hful, hins]
        · intro x hx
          rcases List.mem_append.mp hx with h | h
          · exact hline x h
          · simp at h
            omega
        · have hone : dispRun ⟨t.cli_prompt ++ t.current_line,
              t.cli_prompt.length + t.cursor, .TIdle⟩ [b] =
              dispByte ⟨t.cli_prompt ++ t.current_line,
                t.cli_prompt.length + t.cursor, .TIdle⟩ b := rfl
          rw [hone, dispByte_printable b (by omega)]
          have hw : termWrite (t.cli_prompt ++ t.current_line)
              (t.cli_prompt.length + t.cursor) b =
              t.cli_prompt ++ (t.current_line ++ [b]) := by
            have hnlt : ¬(t.cli_prompt.length + t.cursor <
                (t.cli_prompt ++ t.current_line).length) := by
              simp
              omega
            simp [termWrite, hnlt, hc_eq]
          rw [hw]
          simp [Nat.add_assoc]
      · refine ⟨t, [], ?_, rfl, rfl, hcur, hline, rfl⟩
        simp [processByte, hesc, h27, hcrlf, hbs, hsp, hpr, insert_character, hful]
    · refine ⟨t, [], ?_, rfl, rfl, hcur, hline, rfl⟩
      simp [processByte, hesc, h27, hcrlf, hbs, hsp, hpr]
  | Received =>
    by_cases h91 : b = 0x5B
    · exact ⟨{ t with escape_state := .BracketReceived }, [],
        by simp [processByte, hesc, h91], rfl, rfl, hcur, hline, rfl⟩
    · exact ⟨{ t with escape_state := .NotReceived }, [],
        by simp [processByte, hesc, h91], rfl, rfl, hcur, hline, rfl⟩
  | BracketReceived =>
    by_cases h68 : b = 0x44
    · by_cases hc0 : 0 < t.cursor
      · refine ⟨{ t with cursor := t.cursor - 1, escape_state := .NotReceived },
          [0x1B, 0x5B, 0x44], ?_, rfl, rfl, by simp; omega, hline, ?_⟩
        · simp [processByte, hesc, h68, move_cursor_left, hc0]
        · rw [dispRun_left_one]
          have hcol : t.cli_prompt.length + t.cursor - 1 =
              t.cli_prompt.length + (t.cursor - 1) := by omega
          rw [hcol]
      · refine ⟨{ t with escape_state := .NotReceived }, [], ?_, rfl, rfl, hcur, hline, rfl⟩
        simp [processByte, hesc, h68, move_cursor_left, hc0]
    by_cases h67 : b = 0x43
    · by_cases hcl : t.cursor < t.current_line.length
      · refine ⟨{ t with cursor := t.cursor + 1, escape_state := .NotReceived },
          [0x1B, 0x5B, 0x43], ?_, rfl, rfl, by simp; omega, hline, ?_⟩
        · simp [processByte, hesc, h68, h67, move_cursor_right, hcl]
        · rw [dispRun_right_one]
          simp [Nat.add_assoc]
      · refine ⟨{ t with escape_state := .NotReceived }, [], ?_, rfl, rfl, hcur, hline, rfl⟩
        simp [processByte, hesc, h68, h67, move_cursor_right, hcl]
    · refine ⟨{ t with escape_state := .NotReceived }, [], ?_, rfl, rfl, hcur, hline, rfl⟩
      simp [processByte, hesc, h68, h67]

/-- Folding `processByte_step` over an input sequence whose printable
inserts all land at the tail of the buffer. -/
theorem processBytes_view (maxLen : Nat) (t : Terminal) (bs : List Nat)
    (hp : ∀ x ∈ t.cli_prompt, 0x20 ≤ x ∧ x ≤ 0x7E)
    (hline : ∀ x ∈ t.current_line, 0x20 ≤ x ∧ x ≤ 0x7E)
    (hcur : t.cursor ≤ t.current_line.length)
    (ht : tailOnly maxLen t bs = true) :
    ∃ t' o, processBytes maxLen t bs = some (t', o) ∧
      t'.cli_prompt = t.cli_prompt ∧
      dispRun ⟨t.cli_prompt ++ t.current_line, t.cli_prompt.length + t.cursor, .TIdle⟩ o =
        ⟨t.cli_prompt ++ t'.current_line, t.cli_prompt.length + t'.cursor, .TIdle⟩ := by
  induction bs generalizing t with
  | nil => exact ⟨t, [], rfl, rfl, rfl⟩
  | cons b bs ih =>
    simp only [tailOnly, Bool.and_eq_true, decide_eq_true_eq] at ht
    obtain ⟨hok, hm⟩ := ht
    obtain ⟨t1, o1, h1, hpc1, hcli1, hcu1, hl1, hd1⟩ :=
      processByte_step maxLen t b hp hline hcur hok
    simp only [h1] at hm
    have hp1 : ∀ x ∈ t1.cli_prompt, 0x20 ≤ x ∧ x ≤ 0x7E := by
      rw [hcli1]
      exact hp
    obtain ⟨t2, o2, h2, hcli2, hd2⟩ := ih t1 hp1 hl1 hcu1 hm
    refine ⟨t2, o1 ++ o2, ?_, by rw [hcli2, hcli1], ?_⟩
    · simp [processBytes, h1, h2]
    · rw [hcli1] at hd2
      rw [dispRun_append, hd1, hd2]

/-- C2 (amended): starting from the post-startup state, for every input
sequence whose printable-byte inserts all happen at the tail of the line
buffer (`tailOnly`), replaying the emitted bytes on the remote-terminal
model shows exactly the prompt followed by the LineBuffer, with the
display cursor at the column of the editor cursor.  The tail-insert
restriction is forced by `c2_counterexample`: a printable insert at
`cursor < length(LineBuffer)` merely echoes the byte, which overwrites
instead of inserting on the remote display. -/
theorem c2_display_correspondence (maxLen : Nat) (prompt : List Nat)
    (color : TerminalTextColor) (bs : List Nat)
    (hp : ∀ x ∈ prompt, 0x20 ≤ x ∧ x ≤ 0x7E)
    (ht : tailOnly maxLen (initTerminal prompt color) bs = true) :
    ∃ t o, processBytes maxLen (initTerminal prompt color) bs = some (t, o) ∧
      dispRun (initDisplay prompt) o =
        ⟨prompt ++ t.current_line, prompt.length + t.cursor, .TIdle⟩ := by
  obtain ⟨t, o, h1, hcli, hd⟩ := processBytes_view maxLen (initTerminal prompt color) bs
    (by simpa [initTerminal] using hp) (by simp [initTerminal]) (by simp [initTerminal]) ht
  refine ⟨t, o, h1, ?_⟩
  simpa [initTerminal, initDisplay] using hd

theorem c2_display_correspondence_witness :
    (∀ x ∈ [0x3E, 0x20], 0x20 ≤ x ∧ x ≤ 0x7E) ∧
    tailOnly 8 (initTerminal [0x3E, 0x20] .Blue)
      [0x61, 0x62, 0x63, 0x08, 0x61, 0x62, 0x1B, 0x5B, 0x44, 0x20] = true ∧
    ∃ t o, processBytes 8 (initTerminal [0x3E, 0x20] .Blue)
        [0x61, 0x62, 0x63, 0x08, 0x61, 0x62, 0x1B, 0x5B, 0x44, 0x20] = some (t, o) ∧
      dispRun (initDisplay [0x3E, 0x20]) o =
        ⟨[0x3E, 0x20] ++ t.current_line, [0x3E, 0x20].length + t.cursor, .TIdle⟩ :=
  ⟨by decide, by decide,
   c2_display_correspondence 8 [0x3E, 0x20] .Blue
     [0x61, 0x62, 0x63, 0x08, 0x61, 0x62, 0x1B, 0x5B, 0x44, 0x20]
     (by decide) (by decide)⟩

/-- C2 is false as stated: with prompt `"> "`, feeding `a`, `b`,
ESC `[` `D` (cursor left), then `x` inserts `x` mid-line, so the
LineBuffer is `axb`, but the emitted bytes merely overwrite the display,
which shows `> ax` instead of `> axb`. -/
theorem c2_counterexample :
    processBytes 8 (initTerminal [0x3E, 0x20] .Blue) [0x61, 0x62, 0x1B, 0x5B, 0x44, 0x78] =
      some (⟨2, .NotReceived, [0x61, 0x78, 0x62], .Blue, [0x3E, 0x20]⟩,
            [0x61, 0x62, 0x1B, 0x5B, 0x44, 0x78]) ∧
    dispRun (initDisplay [0x3E, 0x20]) [0x61, 0x62, 0x1B, 0x5B, 0x44, 0x78] =
      ⟨[0x3E, 0x20, 0x61, 0x78], 4, .TIdle⟩ ∧
    ([0x3E, 0x20, 0x61, 0x78] : List Nat) ≠ [0x3E, 0x20] ++ [0x61, 0x78, 0x62] := by
  refine ⟨by decide, by decide, by decide⟩

/-- Every single processed byte succeeds (no panic) and preserves the
cursor/length invariant, with no restriction on the byte. -/
theorem processByte_inv (maxLen : Nat) (t : Terminal) (b : Nat)
    (h : CursorInv maxLen t) :
    ∃ t' o, processByte maxLen t b = some (t', o) ∧ CursorInv maxLen t' := by
  obtain ⟨hcur, hlen⟩ := h
  cases hesc : t.escape_state with
  | NotReceived =>
    by_cases h27 : b = 0x1B
    · exact ⟨{ t with escape_state := .Received }, [],
        by simp [processByte, hesc, h27], hcur, hlen⟩
    by_cases hcrlf : b = 0x0D ∨ b = 0x0A
    · refine ⟨{ t with cursor := 0, current_line := [] },
        [0x0D, 0x0A] ++ t.print_prompt, ?_, by simp [CursorInv]⟩
      simp [processByte, hesc, h27, hcrlf, newline]
    by_cases hbs : b = 0x08 ∨ b = 0x7F
    · by_cases hc : 0 < t.cursor
      · have hsub : t.cursor - 1 + 1 = t.cursor := by omega
        have hrem : vecRemove t.current_line (t.cursor - 1) =
            some (t.current_line.take (t.cursor - 1) ++ t.current_line.drop t.cursor) := by
          have hlt : t.cursor - 1 < t.current_line.length := by omega
          simp [vecRemove, hlt, hsub]
        set t2 : Terminal := { t with current_line := t.current_line.take (t.cursor - 1) ++ t.current_line.drop t.cursor, cursor := t.cursor - 1 } with ht2
        have hml : move_cursor_left { t with current_line := t.current_line.take (t.cursor - 1) ++ t.current_line.drop t.cursor } = (t2, [0x1B, 0x5B, 0x44]) := by
          simp [move_cursor_left, hc, ht2]
        have hcur2 : t2.cursor ≤ t2.current_line.length := by
          simp [ht2]
          omega
        have hrw := rewrite_line_eq t2 hcur2
        refine ⟨t2, [0x1B, 0x5B, 0x44] ++ (rewrite_line t2).2, ?_, hcur2, ?_⟩
        · simp only [processByte, hesc]
          rw [if_neg h27, if_neg hcrlf, if_pos hbs]
          simp only [backspace, if_pos hc, hrem, hml]
          rw [hrw]
        · simp [ht2]
          omega
      · exact ⟨t, [], by simp [processByte, hesc, h27, hcrlf, hbs, backspace, hc],
          hcur, hlen⟩
    by_cases hsp : b = 0x20
    · by_cases hf : t.current_line.length < maxLen
      · have hins : vecInsert maxLen t.current_line t.cursor 0x20 =
            some (t.current_line.take t.cursor ++ 0x20 :: t.current_line.drop t.cursor) := by
          simp [vecInsert, hcur, hf]
        have hlt : t.cursor < (t.current_line.take t.cursor ++ 0x20 :: t.current_line.drop t.cursor).length := by
          simp
          omega
        set t2 : Terminal := { t with current_line := t.current_line.take t.cursor ++ 0x20 :: t.current_line.drop t.cursor, cursor := t.cursor + 1 } with ht2
        have hmr : move_cursor_right { t with current_line := t.current_line.take t.cursor ++ 0x20 :: t.current_line.drop t.cursor } = (t2, [0x1B, 0x5B, 0x43]) := by
          simp only [move_cursor_right, if_pos hlt, ht2]
        have hcur2 : t2.cursor ≤ t2.current_line.length := by
          simp [ht2]
          omega
        have hrw := rewrite_line_eq t2 hcur2
        refine ⟨t2, [0x1B, 0x5B, 0x43] ++ (rewrite_line t2).2, ?_, hcur2, ?_⟩
        · simp only [processByte, hesc]
          rw [if_neg h27, if_neg hcrlf, if_neg hbs, if_pos hsp]
          simp only [space, if_pos hf, hins, hmr]
          rw [hrw]
        · simp [ht2]
          omega
      · exact ⟨t, [], by simp [processByte, hesc, h27, hcrlf, hbs, hsp, space, hf],
          hcur, hlen⟩
    by_cases hpr : 0x21 ≤ b ∧ b ≤ 0x7E
    · by_cases hf : t.current_line.length < maxLen
      · have hins : vecInsert maxLen t.current_line t.cursor b =
            some (t.current_line.take t.cursor ++ b :: t.current_line.drop t.cursor) := by
          simp [vecInsert, hcur, hf]
        refine ⟨{ t with current_line := t.current_line.take t.cursor ++ b :: t.current_line.drop t.cursor, cursor := t.cursor + 1 }, [b], ?_, ?_, ?_⟩
        · simp [processByte, hesc, h27, hcrlf, hbs, hsp, hpr, insert_character, hf, hins]
        · simp
          omega
        · simp
          omega
      · exact ⟨t, [], by simp [processByte, hesc, h27, hcrlf, hbs, hsp, hpr,
          insert_character, hf], hcur, hlen⟩
    · exact ⟨t, [], by simp [processByte, hesc, h27, hcrlf, hbs, hsp, hpr], hcur, hlen⟩
  | Received =>
    by_cases h91 : b = 0x5B
    · exact ⟨{ t with escape_state := .BracketReceived }, [],
        by simp [processByte, hesc, h91], hcur, hlen⟩
    · exact ⟨{ t with escape_state := .NotReceived }, [],
        by simp [processByte, hesc, h91], hcur, hlen⟩
  | BracketReceived =>
    by_cases h68 : b = 0x44
    · by_cases hc0 : 0 < t.cursor
      · refine ⟨{ t with cursor := t.cursor - 1, escape_state := .NotReceived },
          [0x1B, 0x5B, 0x44], ?_, by simp; omega, hlen⟩
        simp [processByte, hesc, h68, move_cursor_left, hc0]
      · refine ⟨{ t with escape_state := .NotReceived }, [], ?_, hcur, hlen⟩
        simp [processByte, hesc, h68, move_cursor_left, hc0]
    by_cases h67 : b = 0x43
    · by_cases hcl : t.cursor < t.current_line.length
      · refine ⟨{ t with cursor := t.cursor + 1, escape_state := .NotReceived },
          [0x1B, 0x5B, 0x43], ?_, by simp; omega, hlen⟩
        simp [processByte, hesc, h68, h67, move_cursor_right, hcl]
      · refine ⟨{ t with escape_state := .NotReceived }, [], ?_, hcur, hlen⟩
        simp [processByte, hesc, h68, h67, move_cursor_right, hcl]
    · refine ⟨{ t with escape_state := .NotReceived }, [], ?_, hcur, hlen⟩
      simp [processByte, hesc, h68, h67]

/-- Loop `process_bytes` never panics and preserves the cursor/length
invariant, for every input byte sequence. -/
theorem processBytes_inv (maxLen : Nat) (t : Terminal) (bs : List Nat)
    (h : CursorInv maxLen t) :
    ∃ t' o, processBytes maxLen t bs = some (t', o) ∧ CursorInv maxLen t' := by
  induction bs generalizing t with
  | nil => exact ⟨t, [], rfl, h⟩
  | cons b bs ih =>
    obtain ⟨t1, o1, h1, hinv1⟩ := processByte_inv maxLen t b h
    obtain ⟨t2, o2, h2, hinv2⟩ := ih t1 hinv1
    exact ⟨t2, o1 ++ o2, by simp [processBytes, h1, h2], hinv2⟩

/-- C3: processing any input byte sequence from the initial editor state
(empty LineBuffer, cursor 0, escape state Idle) keeps
`cursor ≤ length(LineBuffer)` and `length(LineBuffer) ≤ MAX_LINE_LENGTH`;
since every list of bytes is an admissible input, the invariant holds
after every processed byte. -/
theorem c3_cursor_invariant (maxLen : Nat) (prompt : List Nat)
    (color : TerminalTextColor) (bs : List Nat) (t : Terminal) (o : List Nat)
    (h : processBytes maxLen (initTerminal prompt color) bs = some (t, o)) :
    t.cursor ≤ t.current_line.length ∧ t.current_line.length ≤ maxLen := by
  obtain ⟨t', o', h', hinv⟩ := processBytes_inv maxLen (initTerminal prompt color) bs
    (by simp [CursorInv, initTerminal])
  rw [h] at h'
  obtain ⟨rfl, rfl⟩ : t = t' ∧ o = o' := by
    simpa [Prod.ext_iff] using h'
  exact hinv

theorem c3_cursor_invariant_witness :
    processBytes 8 (initTerminal [0x3E, 0x20] .Blue) [0x61, 0x62, 0x1B, 0x5B, 0x44, 0x78] =
      some (⟨2, .NotReceived, [0x61, 0x78, 0x62], .Blue, [0x3E, 0x20]⟩,
            [0x61, 0x62, 0x1B, 0x5B, 0x44, 0x78]) ∧
    ((2 : Nat) ≤ ([0x61, 0x78, 0x62] : List Nat).length ∧
      ([0x61, 0x78, 0x62] : List Nat).length ≤ 8) :=
  ⟨by decide,
   c3_cursor_invariant 8 [0x3E, 0x20] .Blue [0x61, 0x62, 0x1B, 0x5B, 0x44, 0x78]
     ⟨2, .NotReceived, [0x61, 0x78, 0x62], .Blue, [0x3E, 0x20]⟩
     [0x61, 0x62, 0x1B, 0x5B, 0x44, 0x78] (by decide)⟩

/-- C10: the `.unwrap()` calls inside `space` and `insert_character`
(and the `remove` inside `backspace`) never panic: processing any byte
sequence from the initial editor state always returns a result (`some`),
because the guard `length < MAX_LINE_LENGTH` and the invariant
`cursor ≤ length` make every insertion index valid. -/
theorem c10_no_panic (maxLen : Nat) (prompt : List Nat)
    (color : TerminalTextColor) (bs : List Nat) :
    (processBytes maxLen (initTerminal prompt color) bs).isSome = true := by
  obtain ⟨t', o', h', _⟩ := processBytes_inv maxLen (initTerminal prompt color) bs
    (by simp [CursorInv, initTerminal])
  simp [h']

/-- C5: in escape state `Received` (the spec's `EscSeen`), any byte other
than `[` (0x5B) returns the machine to `Idle` and leaves the LineBuffer,
the cursor, and the emitted output untouched. -/
theorem c5_escape_abort (maxLen : Nat) (t : Terminal) (b : Nat)
    (hesc : t.escape_state = EscapeState.Received) (hb : b ≠ 0x5B) :
    processByte maxLen t b = some ({ t with escape_state := .NotReceived }, []) := by
  simp [processByte, hesc, hb]

theorem c5_escape_abort_witness :
    processByte 8 ⟨1, .Received, [0x61], .Blue, [0x3E, 0x20]⟩ 0x41 =
      some (⟨1, .NotReceived, [0x61], .Blue, [0x3E, 0x20]⟩, []) :=
  c5_escape_abort 8 ⟨1, .Received, [0x61], .Blue, [0x3E, 0x20]⟩ 0x41 rfl (by decide)

theorem processBytes_arrow_left (maxLen : Nat) (n : Nat) (t : Terminal)
    (hesc : t.escape_state = EscapeState.NotReceived) :
    ∃ o, processBytes maxLen t (arrowTaps 0x44 n) =
      some ({ t with cursor := t.cursor - n }, o) := by
  induction n generalizing t with
  | zero => exact ⟨[], rfl⟩
  | succ n ih =>
    have h1 : processByte maxLen t 0x1B = some ({ t with escape_state := .Received }, []) := by
      simp [processByte, hesc]
    have h2 : processByte maxLen { t with escape_state := .Received } 0x5B =
        some ({ t with escape_state := .BracketReceived }, []) := by
      simp [processByte]
    have h3 : processByte maxLen { t with escape_state := .BracketReceived } 0x44 =
        some ({ t with escape_state := .NotReceived, cursor := t.cursor - 1 },
          if 0 < t.cursor then [0x1B, 0x5B, 0x44] else []) := by
      by_cases hc : 0 < t.cursor
      · simp [processByte, move_cursor_left, hc]
      · have h0 : t.cursor = 0 := by omega
        simp [processByte, move_cursor_left, hc, h0]
    obtain ⟨o, ho⟩ := ih { t with escape_state := .NotReceived, cursor := t.cursor - 1 } rfl
    refine ⟨(if 0 < t.cursor then [0x1B, 0x5B, 0x44] else []) ++ o, ?_⟩
    show processBytes maxLen t (0x1B :: 0x5B :: 0x44 :: arrowTaps 0x44 n) = _
    simp only [processBytes, h1, h2, h3, ho]
    simp [hesc, Terminal.mk.injEq]
    omega

theorem processBytes_arrow_right (maxLen : Nat) (n : Nat) (t : Terminal)
    (hesc : t.escape_state = EscapeState.NotReceived)
    (hcur : t.cursor ≤ t.current_line.length) :
    ∃ o, processBytes maxLen t (arrowTaps 0x43 n) =
      some ({ t with cursor := min (t.cursor + n) t.current_line.length }, o) := by
  induction n generalizing t with
  | zero =>
    refine ⟨[], ?_⟩
    have h0 : min (t.cursor + 0) t.current_line.length = t.cursor := by omega
    rw [h0]
    rfl
  | succ n ih =>
    have h1 : processByte maxLen t 0x1B = some ({ t with escape_state := .Received }, []) := by
      simp [processByte, hesc]
    have h2 : processByte maxLen { t with escape_state := .Received } 0x5B =
        some ({ t with escape_state := .BracketReceived }, []) := by
      simp [processByte]
    have h3 : processByte maxLen { t with escape_state := .BracketReceived } 0x43 =
        some ({ t with escape_state := .NotReceived, cursor := min (t.cursor + 1) t.current_line.length },
          if t.cursor < t.current_line.length then [0x1B, 0x5B, 0x43] else []) := by
      by_cases hc : t.cursor < t.current_line.length
      · have hmin : min (t.cursor + 1) t.current_line.length = t.cursor + 1 := by omega
        simp [processByte, move_cursor_right, hc, hmin]
      · have hmin : min (t.cursor + 1) t.current_line.length = t.cursor := by omega
        simp [processByte, move_cursor_right, hc, hmin]
    obtain ⟨o, ho⟩ := ih { t with escape_state := .NotReceived, cursor := min (t.cursor + 1) t.current_line.length } rfl (by simp)
    refine ⟨(if t.cursor < t.current_line.length then [0x1B, 0x5B, 0x43] else []) ++ o, ?_⟩
    show processBytes maxLen t (0x1B :: 0x5B :: 0x43 :: arrowTaps 0x43 n) = _
    simp only [processBytes, h1, h2, h3, ho]
    simp [hesc, Terminal.mk.injEq]
    omega

/-- C6: in escape state `BracketReceived` (the spec's `BracketSeen`), the
cursor-right byte 0x43 increments the cursor iff `cursor < length`, the
cursor-left byte 0x44 decrements it iff `cursor > 0`, any other byte
leaves LineBuffer and cursor unchanged, the escape state returns to
`Idle` in every case; consequently, from `Idle`, `n` repetitions of
ESC `[` `D` saturate the cursor at 0 and `n` repetitions of ESC `[` `C`
saturate it at `length(LineBuffer)`. -/
theorem c6_bracket_arrows (maxLen : Nat) (t : Terminal)
    (hesc : t.escape_state = EscapeState.BracketReceived) :
    (t.cursor < t.current_line.length →
      processByte maxLen t 0x43 =
        some ({ t with cursor := t.cursor + 1, escape_state := .NotReceived },
          [0x1B, 0x5B, 0x43])) ∧
    (¬ t.cursor < t.current_line.length →
      processByte maxLen t 0x43 = some ({ t with escape_state := .NotReceived }, [])) ∧
    (0 < t.cursor →
      processByte maxLen t 0x44 =
        some ({ t with cursor := t.cursor - 1, escape_state := .NotReceived },
          [0x1B, 0x5B, 0x44])) ∧
    (¬ 0 < t.cursor →
      processByte maxLen t 0x44 = some ({ t with escape_state := .NotReceived }, [])) ∧
    (∀ b, b ≠ 0x43 → b ≠ 0x44 →
      processByte maxLen t b = some ({ t with escape_state := .NotReceived }, [])) ∧
    (∀ n (t0 : Terminal), t0.escape_state = EscapeState.NotReceived →
      ∃ o, processBytes maxLen t0 (arrowTaps 0x44 n) =
        some ({ t0 with cursor := t0.cursor - n }, o)) ∧
    (∀ n (t0 : Terminal), t0.escape_state = EscapeState.NotReceived →
      t0.cursor ≤ t0.current_line.length →
      ∃ o, processBytes maxLen t0 (arrowTaps 0x43 n) =
        some ({ t0 with cursor := min (t0.cursor + n) t0.current_line.length }, o)) := by
  refine ⟨?_, ?_, ?_, ?_, ?_, ?_, ?_⟩
  · intro hc
    simp [processByte, hesc, move_cursor_right, hc]
  · intro hc
    simp [processByte, hesc, move_cursor_right, hc]
  · intro hc
    simp [processByte, hesc, move_cursor_left, hc]
  · intro hc
    simp [processByte, hesc, move_cursor_left, hc]
  · intro b h43 h44
    simp [processByte, hesc, h43, h44]
  · intro n t0 h0
    exact processBytes_arrow_left maxLen n t0 h0
  · intro n t0 h0 hc0
    exact processBytes_arrow_right maxLen n t0 h0 hc0

theorem c6_bracket_arrows_witness :
    processByte 8 ⟨3, .BracketReceived, [0x61, 0x62, 0x63], .Blue, []⟩ 0x44 =
      some (⟨2, .NotReceived, [0x61, 0x62, 0x63], .Blue, []⟩, [0x1B, 0x5B, 0x44]) ∧
    ∃ o, processBytes 8 ⟨3, .NotReceived, [0x61, 0x62, 0x63], .Blue, []⟩ (arrowTaps 0x44 4) =
      some (⟨0, .NotReceived, [0x61, 0x62, 0x63], .Blue, []⟩, o) := by
  have h := c6_bracket_arrows 8 ⟨3, .BracketReceived, [0x61, 0x62, 0x63], .Blue, []⟩ rfl
  exact ⟨h.2.2.1 (by decide), h.2.2.2.2.2.1 4 ⟨3, .NotReceived, [0x61, 0x62, 0x63], .Blue, []⟩ rfl⟩

/-- C7: in escape state `Idle`, a carriage return (0x0D) or line feed
(0x0A) commits the line whatever the buffer and cursor are: the
LineBuffer is cleared, the cursor reset to 0, and CR LF followed by the
(color-framed) prompt is emitted. -/
theorem c7_line_commit (maxLen : Nat) (t : Terminal) (b : Nat)
    (hesc : t.escape_state = EscapeState.NotReceived) (hb : b = 0x0D ∨ b = 0x0A) :
    processByte maxLen t b =
      some ({ t with cursor := 0, current_line := [] },
        [0x0D, 0x0A] ++ t.print_prompt) := by
  have h27 : ¬ b = 0x1B := by rcases hb with rfl | rfl <;> decide
  simp [processByte, hesc, h27, hb, newline]

theorem c7_line_commit_witness :
    processByte 8 ⟨1, .NotReceived, [0x67, 0x6F], .Blue, [0x3E, 0x20]⟩ 0x0D =
      some (⟨0, .NotReceived, [], .Blue, [0x3E, 0x20]⟩,
        [0x0D, 0x0A, 0x1B, 0x5B, 0x33, 0x34, 0x6D, 0x3E, 0x20, 0x1B, 0x5B, 0x30, 0x6D]) :=
  c7_line_commit 8 ⟨1, .NotReceived, [0x67, 0x6F], .Blue, [0x3E, 0x20]⟩ 0x0D rfl (Or.inl rfl)

theorem processByte_insert_tail (maxLen : Nat) (t : Terminal) (b : Nat)
    (hesc : t.escape_state = EscapeState.NotReceived)
    (hpr : 0x21 ≤ b ∧ b ≤ 0x7E)
    (hful : t.current_line.length < maxLen)
    (hc_eq : t.cursor = t.current_line.length) :
    processByte maxLen t b =
      some ({ t with current_line := t.current_line ++ [b], cursor := t.cursor + 1 }, [b]) := by
  have h27 : ¬ b = 0x1B := by omega
  have hcrlf : ¬ (b = 0x0D ∨ b = 0x0A) := by omega
  have hbsp : ¬ (b = 0x08 ∨ b = 0x7F) := by omega
  have hsp : ¬ b = 0x20 := by omega
  have hins : vecInsert maxLen t.current_line t.cursor b = some (t.current_line ++ [b]) := by
    simp [vecInsert, hc_eq, hful]
  simp [processByte, hesc, h27, hcrlf, hbsp, hsp, hpr, insert_character, hful, hins]

theorem processBytes_printables_append (maxLen : Nat) (bs : List Nat) (t : Terminal)
    (hesc : t.escape_state = EscapeState.NotReceived)
    (hc_eq : t.cursor = t.current_line.length)
    (hfit : t.current_line.length + bs.length ≤ maxLen)
    (hbs : ∀ b ∈ bs, 0x21 ≤ b ∧ b ≤ 0x7E) :
    ∃ o, processBytes maxLen t bs =
      some ({ t with current_line := t.current_line ++ bs, cursor := t.cursor + bs.length }, o) := by
  induction bs generalizing t with
  | nil => exact ⟨[], by simp [processBytes]⟩
  | cons b bs ih =>
    have hful : t.current_line.length < maxLen := by
      simp at hfit
      omega
    have h1 := processByte_insert_tail maxLen t b hesc (hbs b (by simp)) hful hc_eq
    obtain ⟨o, ho⟩ := ih { t with current_line := t.current_line ++ [b], cursor := t.cursor + 1 }
      hesc (by simp; omega) (by simp; simp at hfit; omega)
      (fun x hx => hbs x (by simp [hx]))
    refine ⟨[b] ++ o, ?_⟩
    simp only [processBytes, h1, ho]
    simp [Terminal.mk.injEq]
    omega

theorem processByte_backspace_eq (maxLen : Nat) (t : Terminal)
    (hesc : t.escape_state = EscapeState.NotReceived)
    (hc : 0 < t.cursor) (hcur : t.cursor ≤ t.current_line.length) :
    processByte maxLen t 0x08 =
      some ({ t with current_line := t.current_line.take (t.cursor - 1) ++ t.current_line.drop t.cursor, cursor := t.cursor - 1 },
        [0x1B, 0x5B, 0x44] ++ (rewrite_line { t with current_line := t.current_line.take (t.cursor - 1) ++ t.current_line.drop t.cursor, cursor := t.cursor - 1 }).2) := by
  have hsub : t.cursor - 1 + 1 = t.cursor := by omega
  have hrem : vecRemove t.current_line (t.cursor - 1) =
      some (t.current_line.take (t.cursor - 1) ++ t.current_line.drop t.cursor) := by
    have hlt : t.cursor - 1 < t.current_line.length := by omega
    simp [vecRemove, hlt, hsub]
  have hml : move_cursor_left { t with current_line := t.current_line.take (t.cursor - 1) ++ t.current_line.drop t.cursor } = ({ t with current_line := t.current_line.take (t.cursor - 1) ++ t.current_line.drop t.cursor, cursor := t.cursor - 1 }, [0x1B, 0x5B, 0x44]) := by
    simp [move_cursor_left, hc]
  have hrw := rewrite_line_eq { t with current_line := t.current_line.take (t.cursor - 1) ++ t.current_line.drop t.cursor, cursor := t.cursor - 1 } (by simp; omega)
  have hstep : processByte maxLen t 0x08 = backspace t := by
    simp [processByte, hesc]
  rw [hstep]
  simp only [backspace, if_pos hc, hrem, hml]
  rw [hrw]

theorem processBytes_backspaces (maxLen : Nat) (n : Nat) (t : Terminal)
    (hesc : t.escape_state = EscapeState.NotReceived)
    (hc_eq : t.cursor = t.current_line.length) :
    ∃ o, processBytes maxLen t (List.replicate n 0x08) =
      some ({ t with current_line := t.current_line.take (t.current_line.length - n), cursor := t.current_line.length - n }, o) := by
  induction n generalizing t with
  | zero =>
    refine ⟨[], ?_⟩
    have h1 : t.current_line.length - 0 = t.current_line.length := by omega
    rw [h1, List.take_length, ← hc_eq]
    rfl
  | succ n ih =>
    by_cases hc : 0 < t.cursor
    · have h1 := processByte_backspace_eq maxLen t hesc hc (by omega)
      have hdl : t.current_line.drop t.cursor = [] := by
        rw [hc_eq, List.drop_length]
      rw [hdl, List.append_nil] at h1
      obtain ⟨o, ho⟩ := ih { t with current_line := t.current_line.take (t.cursor - 1), cursor := t.cursor - 1 } hesc (by simp; omega)
      dsimp only at ho
      have hlt : (t.current_line.take (t.cursor - 1)).length = t.cursor - 1 := by
        simp
        omega
      rw [hlt, List.take_take] at ho
      have hmin : min (t.cursor - 1 - n) (t.cursor - 1) = t.current_line.length - (n + 1) := by
        omega
      have harith : t.cursor - 1 - n = t.current_line.length - (n + 1) := by omega
      rw [hmin, harith] at ho
      refine ⟨([0x1B, 0x5B, 0x44] ++ (rewrite_line { t with current_line := t.current_line.take (t.cursor - 1), cursor := t.cursor - 1 }).2) ++ o, ?_⟩
      show processBytes maxLen t (0x08 :: List.replicate n 0x08) = _
      simp only [processBytes, h1, ho]
    · have hl0 : t.current_line = [] := by
        have : t.current_line.length = 0 := by omega
        simpa using this
      have h1 : processByte maxLen t 0x08 = some (t, []) := by
        have hstep : processByte maxLen t 0x08 = backspace t := by
          simp [processByte, hesc]
        rw [hstep]
        simp [backspace, hc]
      obtain ⟨o, ho⟩ := ih t hesc hc_eq
      refine ⟨o, ?_⟩
      show processBytes maxLen t (0x08 :: List.replicate n 0x08) = _
      simp only [processBytes, h1, ho]
      simp [hl0]

theorem processBytes_append (maxLen : Nat) (t : Terminal) (bs1 bs2 : List Nat)
    (t1 : Terminal) (o1 : List Nat)
    (h1 : processBytes maxLen t bs1 = some (t1, o1))
    (t2 : Terminal) (o2 : List Nat)
    (h2 : processBytes maxLen t1 bs2 = some (t2, o2)) :
    processBytes maxLen t (bs1 ++ bs2) = some (t2, o1 ++ o2) := by
  induction bs1 generalizing t o1 with
  | nil =>
    simp only [processBytes, Option.some.injEq, Prod.mk.injEq] at h1
    obtain ⟨rfl, rfl⟩ := h1
    simpa using h2
  | cons b bs ih =>
    rcases hstep : processByte maxLen t b with _ | ⟨ta, oa⟩
    · rw [processBytes.eq_def] at h1
      simp [hstep] at h1
    · rcases hrest : processBytes maxLen ta bs with _ | ⟨tb, ob⟩
      · rw [processBytes.eq_def] at h1
        simp [hstep, hrest] at h1
      · rw [processBytes.eq_def] at h1
        simp only [hstep, hrest, Option.some.injEq, Prod.mk.injEq] at h1
        obtain ⟨rfl, rfl⟩ := h1
        have h3 := ih ta ob hrest
        show processBytes maxLen t (b :: (bs ++ bs2)) = _
        simp only [processBytes, hstep, h3]
        simp

/-- C8: from the initial editor state, inserting `n ≤ MAX_LINE_LENGTH`
printable bytes (0x21-0x7E) and then issuing `n` backspaces returns the
LineBuffer to empty and the cursor to 0. -/
theorem c8_insert_backspace_roundtrip (maxLen : Nat) (prompt : List Nat)
    (color : TerminalTextColor) (bs : List Nat)
    (hlen : bs.length ≤ maxLen)
    (hbs : ∀ b ∈ bs, 0x21 ≤ b ∧ b ≤ 0x7E) :
    ∃ t o, processBytes maxLen (initTerminal prompt color)
        (bs ++ List.replicate bs.length 0x08) = some (t, o) ∧
      t.current_line = [] ∧ t.cursor = 0 := by
  obtain ⟨o1, h1⟩ := processBytes_printables_append maxLen bs (initTerminal prompt color)
    rfl rfl (by simpa [initTerminal] using hlen) hbs
  obtain ⟨o2, h2⟩ := processBytes_backspaces maxLen bs.length
    { initTerminal prompt color with current_line := (initTerminal prompt color).current_line ++ bs, cursor := (initTerminal prompt color).cursor + bs.length }
    rfl (by simp [initTerminal])
  refine ⟨_, o1 ++ o2, processBytes_append maxLen (initTerminal prompt color) bs
    (List.replicate bs.length 0x08) _ o1 h1 _ o2 h2, ?_, ?_⟩
  · simp [initTerminal]
  · simp [initTerminal]

theorem c8_insert_backspace_roundtrip_witness :
    ([0x68, 0x65, 0x6C, 0x6C, 0x6F] : List Nat).length ≤ 8 ∧
    (∀ b ∈ ([0x68, 0x65, 0x6C, 0x6C, 0x6F] : List Nat), 0x21 ≤ b ∧ b ≤ 0x7E) ∧
    ∃ t o, processBytes 8 (initTerminal [0x3E, 0x20] .Blue)
        ([0x68, 0x65, 0x6C, 0x6C, 0x6F] ++ List.replicate 5 0x08) = some (t, o) ∧
      t.current_line = [] ∧ t.cursor = 0 :=
  ⟨by decide, by decide,
   c8_insert_backspace_roundtrip 8 [0x3E, 0x20] .Blue [0x68, 0x65, 0x6C, 0x6C, 0x6F]
     (by decide) (by decide)⟩

/-- C9: in escape state `Idle` with the line buffer full
(`length = MAX_LINE_LENGTH`), a printable byte (0x21-0x7E) or a space
(0x20) is silently ignored: the state is unchanged, nothing is emitted,
and no error is surfaced. -/
theorem c9_full_buffer_ignored (maxLen : Nat) (t : Terminal) (b : Nat)
    (hesc : t.escape_state = EscapeState.NotReceived)
    (hfull : t.current_line.length = maxLen)
    (hb : (0x21 ≤ b ∧ b ≤ 0x7E) ∨ b = 0x20) :
    processByte maxLen t b = some (t, []) := by
  have hnf : ¬ t.current_line.length < maxLen := by omega
  rcases hb with hpr | rfl
  · have h27 : ¬ b = 0x1B := by omega
    have hcrlf : ¬ (b = 0x0D ∨ b = 0x0A) := by omega
    have hbsp : ¬ (b = 0x08 ∨ b = 0x7F) := by omega
    have hsp : ¬ b = 0x20 := by omega
    simp [processByte, hesc, h27, hcrlf, hbsp, hsp, hpr, insert_character, hnf]
  · simp [processByte, hesc, space, hnf]

theorem c9_full_buffer_ignored_witness :
    processByte 2 ⟨1, .NotReceived, [0x61, 0x62], .Blue, [0x3E, 0x20]⟩ 0x63 =
      some (⟨1, .NotReceived, [0x61, 0x62], .Blue, [0x3E, 0x20]⟩, []) ∧
    processByte 2 ⟨1, .NotReceived, [0x61, 0x62], .Blue, [0x3E, 0x20]⟩ 0x20 =
      some (⟨1, .NotReceived, [0x61, 0x62], .Blue, [0x3E, 0x20]⟩, []) :=
  ⟨c9_full_buffer_ignored 2 ⟨1, .NotReceived, [0x61, 0x62], .Blue, [0x3E, 0x20]⟩ 0x63
     rfl rfl (Or.inl (by decide)),
   c9_full_buffer_ignored 2 ⟨1, .NotReceived, [0x61, 0x62], .Blue, [0x3E, 0x20]⟩ 0x20
     rfl rfl (Or.inr rfl)⟩

theorem c4_baud_divisor_witness :
    config_baud_rate 125000000 0x70 =
      [RegWrite.ibrd 67, RegWrite.fbrd 52, RegWrite.lcr_h 0x70] :=
  (c4_baud_divisor 0x70).1

theorem c10_no_panic_witness :
    (processBytes 8 (initTerminal [0x3E, 0x20] .Blue)
      [0x61, 0x62, 0x1B, 0x5B, 0x44, 0x78, 0x08, 0x20, 0x0D]).isSome = true :=
  c10_no_panic 8 [0x3E, 0x20] .Blue [0x61, 0x62, 0x1B, 0x5B, 0x44, 0x78, 0x08, 0x20, 0x0D]

end Mcu
